import Mathlib

/-!
Verification of the closeness-centrality module
(`networkx/algorithms/centrality/closeness.py`).

The module has two entry points:
* `closeness_centrality` (the batch engine), and
* `incremental_closeness_centrality` (the incremental engine with
  level-based work filtering).

The graph data structure and the shortest-path oracle are external
collaborators of the module (they live outside the verified source); they
are modelled here from the specification's collaborator contract:
nodes, edges, `add_edge`, `remove_edge`, `is_directed`, reversed views, and
`reachableDistances` (single-source shortest-path lengths, unweighted
hop-count or weighted by a numeric edge attribute).
-/

set_option maxRecDepth 4000

/-- Modelled from the spec: the external graph collaborator.  A graph is a
set of nodes and a set of edges (ordered pairs), with a directedness flag.
For an undirected graph an edge `(u, v)` also connects `v` to `u`. -/
structure Graph where
  nodes : Finset ℕ
  edges : Finset (ℕ × ℕ)
  directed : Bool
deriving DecidableEq

/-- Modelled from the spec: adjacency / `has_edge`.  For undirected graphs
the stored orientation of an edge does not matter. -/
def Graph.adj (G : Graph) (a b : ℕ) : Prop :=
  (a, b) ∈ G.edges ∨ (G.directed = false ∧ (b, a) ∈ G.edges)

instance (G : Graph) (a b : ℕ) : Decidable (G.adj a b) := by
  unfold Graph.adj; infer_instance

/-- Modelled from the spec: `addEdge(graph, u, v)`.  Mirrors the
collaborator's behaviour: both endpoints are added to the node set, and the
edge is inserted unless an edge between `u` and `v` is already present (a
duplicate insertion changes nothing structurally). -/
def Graph.add_edge (G : Graph) (u v : ℕ) : Graph :=
  { nodes := insert u (insert v G.nodes)
    edges := if G.adj u v then G.edges else insert (u, v) G.edges
    directed := G.directed }

/-- Modelled from the spec: the structural part of `removeEdge(graph, u, v)`.
Both orientations of the pair are erased for an undirected graph.  The
collaborator's "missing edge" failure is checked at the call sites
(`remove_edge` on a nonexistent edge raises). -/
def Graph.remove_edge (G : Graph) (u v : ℕ) : Graph :=
  { nodes := G.nodes
    edges := if G.directed then G.edges.erase (u, v)
             else (G.edges.erase (u, v)).erase (v, u)
    directed := G.directed }

/-- Modelled from the spec: `reversedView(graph)` — every edge's endpoints
swapped, nodes unchanged. -/
def Graph.reverse (G : Graph) : Graph :=
  { nodes := G.nodes
    edges := G.edges.image Prod.swap
    directed := G.directed }

/-- Well-formedness of the external graph structure: edge endpoints are
nodes.  The collaborator maintains this invariant. -/
def Graph.WF (G : Graph) : Prop :=
  ∀ e ∈ G.edges, e.1 ∈ G.nodes ∧ e.2 ∈ G.nodes

instance (G : Graph) : Decidable G.WF := by
  unfold Graph.WF; infer_instance

/-- Modelled from the spec: the set of nodes reachable from `s` by a walk of
at most `n` steps (the `n`-step ball of the hop-count metric).  This is the
semantic core of the unweighted shortest-path oracle. -/
def Graph.ball (G : Graph) (s : ℕ) : ℕ → Finset ℕ
  | 0 => {s}
  | n + 1 =>
      G.ball s n ∪ G.nodes.filter (fun y => ∃ x ∈ G.ball s n, G.adj x y)

/-- Bounded search for the first radius whose ball contains `y`; `k` is the
radius currently being inspected and the second argument is the remaining
fuel. -/
def Graph.searchBall (G : Graph) (s y : ℕ) : ℕ → ℕ → Option ℕ
  | _, 0 => none
  | k, fuel + 1 => if y ∈ G.ball s k then some k else G.searchBall s y (k + 1) fuel

/-- Modelled from the spec: the unweighted (hop-count) shortest-path
distance from `s` to `y`, `none` when `y` is unreachable from `s`.  The
search is bounded by the node count; `ball_stabilizes_card` below shows the
bound loses no reachable node. -/
def Graph.distOpt (G : Graph) (s y : ℕ) : Option ℕ :=
  G.searchBall s y 0 (G.nodes.card + 1)

/-- Modelled from the spec: `reachableDistances(graph, source)` in
unweighted mode — `single_source_shortest_path_length`: the mapping from
every reachable node of the graph to its hop-count distance from `source`. -/
def Graph.hopMap (G : Graph) (s : ℕ) : ℕ → Option ℕ :=
  fun y => if y ∈ G.nodes then G.distOpt s y else none

/-- Helper: minimum of two optional rationals (`none` = infinity). -/
def omin : Option ℚ → Option ℚ → Option ℚ
  | none, b => b
  | some a, none => some a
  | some a, some b => some (min a b)

instance : Std.Commutative omin where
  comm := by
    intro a b
    cases a <;> cases b <;> simp [omin, min_comm]

instance : Std.Associative omin where
  assoc := by
    intro a b c
    cases a <;> cases b <;> cases c <;> simp [omin, min_assoc]

/-- Modelled from the spec: one relaxation round of the weighted
single-source shortest-path computation (Dijkstra mode of the oracle,
`single_source_dijkstra_path_length` with the given edge attribute). -/
def Graph.wRelax (G : Graph) (wt : ℕ → ℕ → ℚ) (d : ℕ → Option ℚ) : ℕ → Option ℚ :=
  fun y =>
    omin (d y)
      (Finset.fold omin none
        (fun x => if G.adj x y then (d x).map (fun q => q + wt x y) else none) G.nodes)

/-- Modelled from the spec: iterated relaxation; after `|nodes|` rounds this
is the weighted shortest-path distance (weights nonnegative per the
collaborator contract). -/
def Graph.wIter (G : Graph) (wt : ℕ → ℕ → ℚ) (s : ℕ) : ℕ → ℕ → Option ℚ
  | 0 => fun y => if y = s then some 0 else none
  | k + 1 => G.wRelax wt (G.wIter wt s k)

/-- Modelled from the spec: `reachableDistances(graph, source, weight)` in
weighted mode — the mapping from every reachable node of the graph to its
weighted shortest-path distance from `source`. -/
def Graph.wMap (G : Graph) (wt : ℕ → ℕ → ℚ) (s : ℕ) : ℕ → Option ℚ :=
  fun y => if y ∈ G.nodes then G.wIter wt s G.nodes.card y else none

/-- A `CentralityMap` (also the shape of a Python dict keyed by nodes):
a finite key set and the value function on it (values outside `dom` are
irrelevant junk). -/
structure CMap where
  dom : Finset ℕ
  val : ℕ → ℚ

/-- The shortest-path dictionary `sp = dict(path_length(G, n))` of the batch
engine: unweighted hop counts when `distance is None`, else Dijkstra with
the given weights, numeric values in both cases. -/
def Graph.spMap (G : Graph) (distance : Option (ℕ → ℕ → ℚ)) (n : ℕ) : ℕ → Option ℚ :=
  match distance with
  | none => fun y => (G.hopMap n y).map (fun d => (d : ℚ))
  | some wt => G.wMap wt n

/-- Embedding of the per-node loop body of `closeness_centrality`:
`totsp = sum(sp.values())`, and if `totsp > 0 and len(G) > 1` then
`(len(sp) - 1) / totsp`, scaled by `(len(sp) - 1) / (len(G) - 1)` when
`wf_improved`, else `0.0`. -/
def Graph.closenessValue (G : Graph) (distance : Option (ℕ → ℕ → ℚ))
    (wf_improved : Bool) (n : ℕ) : ℚ :=
  let sp := G.spMap distance n
  let reach := G.nodes.filter (fun y => (sp y).isSome)
  let totsp : ℚ := reach.sum (fun y => (sp y).getD 0)
  if 0 < totsp ∧ 1 < G.nodes.card then
    let base := ((reach.card : ℚ) - 1) / totsp
    if wf_improved then base * (((reach.card : ℚ) - 1) / ((G.nodes.card : ℚ) - 1))
    else base
  else 0

/-- Embedding of `closeness_centrality(G, u=None, distance, wf_improved)`:
directed graphs are first replaced by their reversed view, then the per-node
value is computed for every node.  (With the optional `u` argument the
source returns the single entry `closenessValue` for `u` instead of the
whole dictionary.) -/
def closeness_centrality (G : Graph) (distance : Option (ℕ → ℕ → ℚ))
    (wf_improved : Bool) : CMap :=
  let H := if G.directed = true then G.reverse else G
  ⟨H.nodes, fun n => H.closenessValue distance wf_improved n⟩

/-- The error kinds of the incremental engine (spec §7): rejection of
directed graphs, the stale-cache validation error, and structural-mutation
errors propagated from the graph collaborator (removing a missing edge). -/
inductive CentralityError where
  | unsupportedGraphType
  | staleCentralityCache
  | graphMutationError
deriving DecidableEq

/-- Embedding of the cache validation of `incremental_closeness_centrality`:
`shared_items = set(prev_cc.keys()) & set(G.nodes())` and the call fails when
`len(prev_cc) != count_shared or len(G.nodes()) != count_shared`. -/
def staleCheckFails (prev_cc : Option CMap) (G : Graph) : Bool :=
  match prev_cc with
  | none => false
  | some p =>
      let shared := p.dom ∩ G.nodes
      decide (p.dom.card ≠ shared.card ∨ G.nodes.card ≠ shared.card)

/-- Embedding of the work filter of the incremental loop:
`n_from_u is not None and n_from_v is not None and abs(n_from_u - n_from_v) <= 1`. -/
def filterCond (n_from_u n_from_v : Option ℕ) : Bool :=
  match n_from_u, n_from_v with
  | some a, some b => decide (((a : ℤ) - (b : ℤ)).natAbs ≤ 1)
  | _, _ => false

/-- The graph in which the incremental engine measures `du` and `dv`:
the untouched graph for an insertion, the graph with the edge already
removed for a deletion. -/
def measureGraph (G : Graph) (u v : ℕ) (insertion : Bool) : Graph :=
  if insertion then G else G.remove_edge u v

/-- The changed graph `G'`: `G` with the edge change applied. -/
def applyChange (G : Graph) (u v : ℕ) (insertion : Bool) : Graph :=
  if insertion then G.add_edge u v else G.remove_edge u v

/-- Embedding of the final "leave the graph as we found it" block: remove
the edge after an insertion, re-add it after a deletion.  (The source's
`remove_edge` cannot fail here: on this path the edge is always present.) -/
def revertChange (G : Graph) (u v : ℕ) (insertion : Bool) : Graph :=
  if insertion then G.remove_edge u v else G.add_edge u v

/-- Embedding of the measurement block of `incremental_closeness_centrality`:
for an insertion, `du = path_length(G, u)` and `dv = path_length(G, v)` are
computed BEFORE `G_prime.add_edge(u, v)`; for a deletion,
`G_prime.remove_edge(u, v)` runs first (raising a mutation error when the
edge is absent) and the distances are computed on the modified graph.
Returns `(du, dv, G_prime)`. -/
def incrementalDistMaps (G : Graph) (u v : ℕ) (insertion : Bool) :
    Except (CentralityError × Graph) ((ℕ → Option ℕ) × (ℕ → Option ℕ) × Graph) :=
  if insertion then
    .ok (G.hopMap u, G.hopMap v, G.add_edge u v)
  else
    if G.adj u v then
      .ok ((G.remove_edge u v).hopMap u, (G.remove_edge u v).hopMap v, G.remove_edge u v)
    else .error (.graphMutationError, G)

/-- Embedding of the per-node body of the incremental loop: copy
`prev_cc[n]` when the work filter admits `n`, otherwise recompute from `n`
over the current (changed) graph exactly as the source's inline copy of the
batch formula does (unweighted distances, integer `totsp`). -/
def incrementalLoopVal (Gp : Graph) (du dv : ℕ → Option ℕ) (p : CMap)
    (normalized : Bool) (n : ℕ) : ℚ :=
  if filterCond (du n) (dv n) then p.val n
  else
    let sp := Gp.hopMap n
    let reach := Gp.nodes.filter (fun y => (sp y).isSome)
    let totsp : ℕ := reach.sum (fun y => (sp y).getD 0)
    if 0 < totsp ∧ 1 < Gp.nodes.card then
      let base := ((reach.card : ℚ) - 1) / (totsp : ℚ)
      if normalized then base * (((reach.card : ℚ) - 1) / ((Gp.nodes.card : ℚ) - 1))
      else base
    else 0

/-- Embedding of `incremental_closeness_centrality(G, edge, prev_cc,
insertion, normalized)`.  The graph the Python code mutates in place is
threaded explicitly: every exit (normal or error) carries the graph state
at that exit. -/
def incremental_closeness_centrality (G : Graph) (edge : ℕ × ℕ)
    (prev_cc : Option CMap) (insertion : Bool) (normalized : Bool) :
    Except (CentralityError × Graph) (Graph × CMap) :=
  if G.directed = true then .error (.unsupportedGraphType, G)
  else if staleCheckFails prev_cc G then .error (.staleCentralityCache, G)
  else
    match incrementalDistMaps G edge.1 edge.2 insertion with
    | .error e => .error e
    | .ok (du, dv, Gp) =>
      match prev_cc with
      | none => .ok (Gp, closeness_centrality Gp none true)
      | some p =>
          .ok (revertChange Gp edge.1 edge.2 insertion,
               ⟨Gp.nodes, fun n => incrementalLoopVal Gp du dv p normalized n⟩)

/-- Observation: the graph state at exit, for any outcome. -/
def resultGraph (r : Except (CentralityError × Graph) (Graph × CMap)) : Graph :=
  match r with
  | .ok x => x.1
  | .error e => e.2

/-- Observation: the returned dictionary's entry at `n` (`none` when the
call failed or `n` is not a key). -/
def resultMapAt (r : Except (CentralityError × Graph) (Graph × CMap)) (n : ℕ) :
    Option ℚ :=
  match r with
  | .ok x => if n ∈ x.2.dom then some (x.2.val n) else none
  | .error _ => none

/-- Two centrality dictionaries are equal node-for-node. -/
def agreeOn (m t : CMap) : Prop :=
  m.dom = t.dom ∧ ∀ n ∈ m.dom, m.val n = t.val n

instance (m t : CMap) : Decidable (agreeOn m t) := by
  unfold agreeOn; infer_instance

/-- The call succeeded and its dictionary agrees node-for-node with `t`. -/
def okAgrees (r : Except (CentralityError × Graph) (Graph × CMap)) (t : CMap) :
    Prop :=
  match r with
  | .ok x => agreeOn x.2 t
  | .error _ => False

instance (r : Except (CentralityError × Graph) (Graph × CMap)) (t : CMap) :
    Decidable (okAgrees r t) := by
  unfold okAgrees
  rcases r with e | x
  · exact inferInstanceAs (Decidable False)
  · exact inferInstanceAs (Decidable (agreeOn _ _))

/-- Observation on `incrementalDistMaps`: the `du` map's entry at `n`. -/
def dmapsFstAt
    (r : Except (CentralityError × Graph) ((ℕ → Option ℕ) × (ℕ → Option ℕ) × Graph))
    (n : ℕ) : Option ℕ :=
  match r with
  | .ok x => x.1 n
  | .error _ => none

/-- The raw distance sum `totsp = sum(sp.values())` of the batch engine. -/
def Graph.rawDistanceSum (G : Graph) (distance : Option (ℕ → ℕ → ℚ)) (n : ℕ) : ℚ :=
  (G.nodes.filter (fun y => (G.spMap distance n y).isSome)).sum
    (fun y => (G.spMap distance n y).getD 0)

/-- The call failed with the given error kind. -/
def failsAs (r : Except (CentralityError × Graph) (Graph × CMap))
    (e : CentralityError) : Prop :=
  match r with
  | .ok _ => False
  | .error x => x.1 = e

instance (r : Except (CentralityError × Graph) (Graph × CMap)) (e : CentralityError) :
    Decidable (failsAs r e) := by
  unfold failsAs
  rcases r with x | x
  · exact inferInstanceAs (Decidable (x.1 = e))
  · exact inferInstanceAs (Decidable False)

/-- The call returned normally. -/
def callSucceeds (r : Except (CentralityError × Graph) (Graph × CMap)) : Prop :=
  match r with
  | .ok _ => True
  | .error _ => False

instance (r : Except (CentralityError × Graph) (Graph × CMap)) :
    Decidable (callSucceeds r) := by
  unfold callSucceeds
  rcases r with x | x
  · exact inferInstanceAs (Decidable False)
  · exact inferInstanceAs (Decidable True)

/-- The path graph 1 - 2 - 3 - 4 - 5 of the spec's first concrete scenario. -/
def P5 : Graph := ⟨{1, 2, 3, 4, 5}, {(1, 2), (2, 3), (3, 4), (4, 5)}, false⟩

/-- The path graph 1 - 2 - 3 (used to exercise the incremental engine with
the insertion of the closing edge (1, 3)). -/
def GT : Graph := ⟨{1, 2, 3}, {(1, 2), (2, 3)}, false⟩

/-- A previous-result dictionary with the right key set but arbitrary
(wrong) values. -/
def P42 : CMap := ⟨{1, 2, 3}, fun _ => 42⟩

/-- A two-node graph with a single edge. -/
def W2 : Graph := ⟨{1, 2}, {(1, 2)}, false⟩

/-- A constant edge-weight assignment of 1/2. -/
def whalf : ℕ → ℕ → ℚ := fun _ _ => 1 / 2

/-- A two-node directed graph. -/
def D1 : Graph := ⟨{1, 2}, {(1, 2)}, true⟩

/-- A two-node graph with no edges. -/
def E2 : Graph := ⟨{1, 2}, ∅, false⟩

/-- A valid previous-result dictionary for the two-node graphs. -/
def PM2 : CMap := ⟨{1, 2}, fun _ => 1 / 2⟩

/-- A previous-result dictionary whose key set does not match the two-node
graphs. -/
def Pbad3 : CMap := ⟨{1, 2, 3}, fun _ => 0⟩

/-- Nodes 1 and 2 - 3: node 3 is unreachable from 1 until (1, 2) is
inserted. -/
def G3 : Graph := ⟨{1, 2, 3}, {(2, 3)}, false⟩

section BallBasics

variable {G : Graph} {s y : ℕ}

theorem ball_zero (G : Graph) (s : ℕ) : G.ball s 0 = {s} := rfl

theorem ball_succ (G : Graph) (s n : ℕ) :
    G.ball s (n + 1) =
      G.ball s n ∪ G.nodes.filter (fun y => ∃ x ∈ G.ball s n, G.adj x y) := rfl

theorem mem_ball_self (G : Graph) (s : ℕ) : ∀ n, s ∈ G.ball s n := by
  intro n
  induction n with
  | zero => simp [ball_zero]
  | succ n ih => simp [ball_succ]; exact Or.inl ih

theorem ball_mono_succ (G : Graph) (s n : ℕ) : G.ball s n ⊆ G.ball s (n + 1) := by
  intro y hy
  simp [ball_succ]
  exact Or.inl hy

theorem ball_mono (G : Graph) (s : ℕ) {m n : ℕ} (h : m ≤ n) :
    G.ball s m ⊆ G.ball s n := by
  induction n with
  | zero => simp [Nat.le_zero.mp h]
  | succ n ih =>
      rcases Nat.lt_or_ge m (n + 1) with h' | h'
      · exact (ih (Nat.lt_succ_iff.mp h')).trans (ball_mono_succ G s n)
      · have : m = n + 1 := Nat.le_antisymm h h'
        subst this
        exact Finset.Subset.refl _

theorem ball_subset_insert (G : Graph) (s : ℕ) :
    ∀ n, G.ball s n ⊆ insert s G.nodes := by
  intro n
  induction n with
  | zero => simp [ball_zero]
  | succ n ih =>
      intro y hy
      rw [ball_succ] at hy
      rcases Finset.mem_union.mp hy with h | h
      · exact ih h
      · exact Finset.mem_insert_of_mem (Finset.mem_filter.mp h).1

theorem mem_ball_step {n x : ℕ} (hx : x ∈ G.ball s n) (hadj : G.adj x y)
    (hy : y ∈ G.nodes) : y ∈ G.ball s (n + 1) := by
  rw [ball_succ]
  refine Finset.mem_union_right _ (Finset.mem_filter.mpr ⟨hy, ⟨x, hx, hadj⟩⟩)

end BallBasics

section BallStabilization

variable {G : Graph} {s y : ℕ}

theorem ball_stab_succ {n : ℕ} (h : G.ball s (n + 1) = G.ball s n) :
    ∀ k, G.ball s (n + k) = G.ball s n := by
  intro k
  induction k with
  | zero => rfl
  | succ k ih =>
      have : G.ball s (n + k + 1) =
          G.ball s (n + k) ∪
            G.nodes.filter (fun y => ∃ x ∈ G.ball s (n + k), G.adj x y) :=
        ball_succ G s (n + k)
      rw [show n + (k + 1) = n + k + 1 from rfl, this, ih, ← ball_succ, h]

theorem ball_grow_or_stab (G : Graph) (s : ℕ) :
    ∀ n, G.ball s (n + 1) = G.ball s n ∨ n + 2 ≤ (G.ball s (n + 1)).card := by
  intro n
  induction n with
  | zero =>
      by_cases h : G.ball s 1 = G.ball s 0
      · exact Or.inl h
      · refine Or.inr ?_
        have hsub : G.ball s 0 ⊂ G.ball s 1 :=
          Finset.ssubset_iff_subset_ne.mpr ⟨ball_mono_succ G s 0, fun he => h he.symm⟩
        have h0 : (G.ball s 0).card = 1 := by simp [ball_zero]
        have := Finset.card_lt_card hsub
        simp only [Nat.zero_add]
        omega
  | succ n ih =>
      by_cases h : G.ball s (n + 2) = G.ball s (n + 1)
      · exact Or.inl h
      · refine Or.inr ?_
        have hsub : G.ball s (n + 1) ⊂ G.ball s (n + 2) :=
          Finset.ssubset_iff_subset_ne.mpr ⟨ball_mono_succ G s (n + 1), fun he => h he.symm⟩
        have hlt := Finset.card_lt_card hsub
        rcases ih with h' | h'
        · exact absurd ((ball_stab_succ h' 2).trans (ball_stab_succ h' 1).symm) h
        · show n + 1 + 2 ≤ (G.ball s (n + 2)).card
          omega

theorem ball_card_le (G : Graph) (s : ℕ) (hs : s ∈ G.nodes) (n : ℕ) :
    (G.ball s n).card ≤ G.nodes.card := by
  have h1 : G.ball s n ⊆ G.nodes := by
    intro y hy
    have := ball_subset_insert G s n hy
    rwa [Finset.insert_eq_self.mpr hs] at this
  exact Finset.card_le_card h1

/-- The balls stabilize by radius `|nodes|`: the bounded search of the
shortest-path model misses no reachable node. -/
theorem ball_stabilizes_card (G : Graph) (s : ℕ) (hs : s ∈ G.nodes) {n y : ℕ}
    (h : y ∈ G.ball s n) : y ∈ G.ball s G.nodes.card := by
  rcases le_or_lt n G.nodes.card with hle | hlt
  · exact ball_mono G s hle h
  · have hN : 1 ≤ G.nodes.card := Finset.card_pos.mpr ⟨s, hs⟩
    obtain ⟨m, hm, hstab⟩ : ∃ m, m + 1 ≤ G.nodes.card ∧ G.ball s (m + 1) = G.ball s m := by
      rcases ball_grow_or_stab G s (G.nodes.card - 1) with h' | h'
      · exact ⟨G.nodes.card - 1, by omega, h'⟩
      · have := ball_card_le G s hs (G.nodes.card - 1 + 1)
        omega
    have hball : ∀ k, G.ball s (m + k) = G.ball s m := ball_stab_succ hstab
    have h1 : y ∈ G.ball s m := by
      have := hball (n - m)
      rw [show m + (n - m) = n by omega] at this
      rwa [this] at h
    exact ball_mono G s (by omega) h1

end BallStabilization

section DistOpt

variable {G : Graph} {s y : ℕ}

theorem searchBall_some :
    ∀ fuel k d, G.searchBall s y k fuel = some d →
      y ∈ G.ball s d ∧ k ≤ d ∧ ∀ j, k ≤ j → j < d → y ∉ G.ball s j := by
  intro fuel
  induction fuel with
  | zero => intro k d h; simp [Graph.searchBall] at h
  | succ fuel ih =>
      intro k d h
      by_cases hk : y ∈ G.ball s k
      · simp [Graph.searchBall, hk] at h
        subst h
        exact ⟨hk, le_refl _, fun j h1 h2 => absurd (Nat.lt_of_le_of_lt h1 h2) (lt_irrefl _)⟩
      · simp [Graph.searchBall, hk] at h
        obtain ⟨h1, h2, h3⟩ := ih (k + 1) d h
        refine ⟨h1, by omega, fun j hj1 hj2 => ?_⟩
        rcases Nat.eq_or_lt_of_le hj1 with he | hl
        · exact he ▸ hk
        · exact h3 j hl hj2

theorem searchBall_isSome :
    ∀ fuel k j, k ≤ j → j < k + fuel → y ∈ G.ball s j →
      (G.searchBall s y k fuel).isSome = true := by
  intro fuel
  induction fuel with
  | zero => intro k j h1 h2; omega
  | succ fuel ih =>
      intro k j h1 h2 hj
      by_cases hk : y ∈ G.ball s k
      · simp [Graph.searchBall, hk]
      · have hne : k ≠ j := fun he => hk (he ▸ hj)
        simp only [Graph.searchBall, hk, if_false]
        exact ih (k + 1) j (by omega) (by omega) hj

theorem distOpt_some {d : ℕ} (h : G.distOpt s y = some d) :
    y ∈ G.ball s d ∧ ∀ j < d, y ∉ G.ball s j := by
  obtain ⟨h1, _, h3⟩ := searchBall_some _ _ _ h
  exact ⟨h1, fun j hj => h3 j (Nat.zero_le _) hj⟩

theorem distOpt_le {d n : ℕ} (h : G.distOpt s y = some d) (hn : y ∈ G.ball s n) :
    d ≤ n := by
  by_contra hlt
  exact (distOpt_some h).2 n (by omega) hn

theorem distOpt_isSome_of_mem (hs : s ∈ G.nodes) {n : ℕ} (h : y ∈ G.ball s n) :
    (G.distOpt s y).isSome = true := by
  have hN := ball_stabilizes_card G s hs h
  exact searchBall_isSome (G.nodes.card + 1) 0 G.nodes.card (Nat.zero_le _)
    (by omega) hN

theorem distOpt_self (G : Graph) (s : ℕ) : G.distOpt s s = some 0 := by
  unfold Graph.distOpt
  simp [Graph.searchBall, mem_ball_self]

theorem distOpt_eq_zero (h : G.distOpt s y = some 0) : y = s := by
  have h1 := (distOpt_some h).1
  simpa [ball_zero] using h1

theorem searchBall_congr {G₁ G₂ : Graph} {s y : ℕ}
    (hball : ∀ n, G₁.ball s n = G₂.ball s n) :
    ∀ fuel k, G₁.searchBall s y k fuel = G₂.searchBall s y k fuel := by
  intro fuel
  induction fuel with
  | zero => intro k; rfl
  | succ fuel ih =>
      intro k
      simp only [Graph.searchBall, hball k, ih (k + 1)]

theorem distOpt_congr {G₁ G₂ : Graph} {s y : ℕ}
    (hnodes : G₁.nodes = G₂.nodes)
    (hball : ∀ n, G₁.ball s n = G₂.ball s n) :
    G₁.distOpt s y = G₂.distOpt s y := by
  unfold Graph.distOpt
  rw [hnodes, searchBall_congr hball]

end DistOpt

section GraphRelations

variable {G G₁ G₂ : Graph} {u v a b s x y : ℕ}

theorem adj_symm (hdir : G.directed = false) (h : G.adj a b) : G.adj b a := by
  rcases h with h | ⟨_, h⟩
  · exact Or.inr ⟨hdir, h⟩
  · exact Or.inl h

theorem adj_mem_left (hWF : G.WF) (h : G.adj a b) : a ∈ G.nodes := by
  rcases h with h | ⟨_, h⟩
  · exact (hWF _ h).1
  · exact (hWF _ h).2

theorem adj_mem_right (hWF : G.WF) (h : G.adj a b) : b ∈ G.nodes := by
  rcases h with h | ⟨_, h⟩
  · exact (hWF _ h).2
  · exact (hWF _ h).1

theorem ball_congr_graph (hnodes : G₁.nodes = G₂.nodes)
    (hadj : ∀ a b, G₁.adj a b ↔ G₂.adj a b) :
    ∀ n, G₁.ball s n = G₂.ball s n := by
  intro n
  induction n with
  | zero => rfl
  | succ n ih =>
      rw [ball_succ, ball_succ, ih, hnodes]
      congr 1
      apply Finset.filter_congr
      intro y _
      constructor
      · rintro ⟨x, hx, h⟩; exact ⟨x, hx, (hadj x y).mp h⟩
      · rintro ⟨x, hx, h⟩; exact ⟨x, hx, (hadj x y).mpr h⟩

theorem ball_mono_graph (hnodes : G₁.nodes = G₂.nodes)
    (hadj : ∀ a b, G₁.adj a b → G₂.adj a b) :
    ∀ n, G₁.ball s n ⊆ G₂.ball s n := by
  intro n
  induction n with
  | zero => exact Finset.Subset.refl _
  | succ n ih =>
      intro y hy
      rw [ball_succ] at hy
      rcases Finset.mem_union.mp hy with h | h
      · exact ball_mono_succ G₂ s n (ih h)
      · obtain ⟨hy2, x, hx, hxy⟩ := by
          simpa using h
        exact mem_ball_step (ih hx) (hadj x y hxy) (hnodes ▸ hy2)

theorem ball_cons_front (hWF : G.WF) (hadj : G.adj a b) :
    ∀ n, ∀ x ∈ G.ball b n, x ∈ G.ball a (n + 1) := by
  intro n
  induction n with
  | zero =>
      intro x hx
      rw [ball_zero, Finset.mem_singleton] at hx
      subst hx
      exact mem_ball_step (mem_ball_self G a 0) hadj (adj_mem_right hWF hadj)
  | succ n ih =>
      intro x hx
      rw [ball_succ] at hx
      rcases Finset.mem_union.mp hx with h | h
      · exact ball_mono_succ G a (n + 1) (ih x h)
      · obtain ⟨hx2, w, hw, hwx⟩ := by simpa using h
        exact mem_ball_step (ih w hw) hwx hx2

theorem ball_symm (hWF : G.WF) (hdir : G.directed = false) :
    ∀ n x y, y ∈ G.ball x n → x ∈ G.ball y n := by
  intro n
  induction n with
  | zero =>
      intro x y hy
      rw [ball_zero, Finset.mem_singleton] at hy
      subst hy
      exact mem_ball_self G y 0
  | succ n ih =>
      intro x y hy
      rw [ball_succ] at hy
      rcases Finset.mem_union.mp hy with h | h
      · exact ball_mono_succ G y n (ih x y h)
      · obtain ⟨_, w, hw, hwy⟩ := by simpa using h
        exact ball_cons_front hWF (adj_symm hdir hwy) n x (ih x w hw)

theorem distOpt_symm (hWF : G.WF) (hdir : G.directed = false) :
    G.distOpt x y = G.distOpt y x := by
  have hball : ∀ n, (y ∈ G.ball x n) = (x ∈ G.ball y n) := by
    intro n
    exact propext ⟨ball_symm hWF hdir n x y, ball_symm hWF hdir n y x⟩
  unfold Graph.distOpt
  have : ∀ fuel k, G.searchBall x y k fuel = G.searchBall y x k fuel := by
    intro fuel
    induction fuel with
    | zero => intro k; rfl
    | succ fuel ih =>
        intro k
        simp only [Graph.searchBall, hball k, ih (k + 1)]
  exact this _ 0

theorem adj_add_edge (hdir : G.directed = false) :
    (G.add_edge u v).adj a b ↔ G.adj a b ∨ (a = u ∧ b = v) ∨ (a = v ∧ b = u) := by
  by_cases h : G.adj u v
  · have he : (G.add_edge u v).edges = G.edges := by
      simp [Graph.add_edge, if_pos h]
    have hd : (G.add_edge u v).directed = G.directed := rfl
    have hG : (G.add_edge u v).adj a b ↔ G.adj a b := by
      simp [Graph.adj, he, hd]
    rw [hG]
    have h' : G.adj v u := adj_symm hdir h
    constructor
    · exact Or.inl
    · rintro (hx | ⟨rfl, rfl⟩ | ⟨rfl, rfl⟩)
      · exact hx
      · exact h
      · exact h'
  · have he : (G.add_edge u v).edges = insert (u, v) G.edges := by
      simp [Graph.add_edge, if_neg h]
    have hd : (G.add_edge u v).directed = G.directed := rfl
    simp only [Graph.adj, he, hd, hdir, Finset.mem_insert, Prod.mk.injEq, true_and]
    tauto

theorem add_edge_nodes_eq (hu : u ∈ G.nodes) (hv : v ∈ G.nodes) :
    (G.add_edge u v).nodes = G.nodes := by
  simp [Graph.add_edge, Finset.insert_eq_self.mpr hv, Finset.insert_eq_self.mpr hu]

theorem add_edge_directed (G : Graph) (u v : ℕ) :
    (G.add_edge u v).directed = G.directed := rfl

theorem remove_edge_nodes (G : Graph) (u v : ℕ) :
    (G.remove_edge u v).nodes = G.nodes := rfl

theorem remove_edge_directed (G : Graph) (u v : ℕ) :
    (G.remove_edge u v).directed = G.directed := rfl

theorem adj_remove_edge (hdir : G.directed = false) :
    (G.remove_edge u v).adj a b ↔
      (G.adj a b ∧ ¬((a = u ∧ b = v) ∨ (a = v ∧ b = u))) := by
  have he : (G.remove_edge u v).edges = (G.edges.erase (u, v)).erase (v, u) := by
    simp [Graph.remove_edge, hdir]
  have hd : (G.remove_edge u v).directed = G.directed := rfl
  simp only [Graph.adj, he, hd, hdir, Finset.mem_erase, Prod.mk.injEq, ne_eq, true_and,
    not_and, not_or]
  tauto


theorem WF_add_edge (hWF : G.WF) : (G.add_edge u v).WF := by
  intro e he
  unfold Graph.add_edge at he
  simp only at he
  by_cases h : G.adj u v
  · rw [if_pos h] at he
    have := hWF e he
    exact ⟨Finset.mem_insert_of_mem (Finset.mem_insert_of_mem this.1),
      Finset.mem_insert_of_mem (Finset.mem_insert_of_mem this.2)⟩
  · rw [if_neg h, Finset.mem_insert] at he
    rcases he with he | he
    · subst he
      exact ⟨Finset.mem_insert_self _ _,
        Finset.mem_insert_of_mem (Finset.mem_insert_self _ _)⟩
    · have := hWF e he
      exact ⟨Finset.mem_insert_of_mem (Finset.mem_insert_of_mem this.1),
        Finset.mem_insert_of_mem (Finset.mem_insert_of_mem this.2)⟩

theorem WF_remove_edge (hWF : G.WF) : (G.remove_edge u v).WF := by
  intro e he
  unfold Graph.remove_edge at he
  simp only at he
  split at he
  · exact hWF e (Finset.mem_of_mem_erase he)
  · exact hWF e (Finset.mem_of_mem_erase (Finset.mem_of_mem_erase he))

end GraphRelations

section WorkFiltering

variable {G : Graph} {u v x : ℕ}

/-- The level-based work-filtering principle of Sariyuce et al.: if the
distances from `x` to the two endpoints of a new edge differ by at most one
hop, inserting that edge changes no ball around `x` — hence no shortest-path
distance from `x`. -/
theorem ball_add_edge_subset (hdir : G.directed = false)
    (hu : u ∈ G.nodes) (hv : v ∈ G.nodes)
    {a b : ℕ} (ha : G.distOpt x u = some a) (hb : G.distOpt x v = some b)
    (hab1 : a ≤ b + 1) (hab2 : b ≤ a + 1) :
    ∀ n, (G.add_edge u v).ball x n ⊆ G.ball x n := by
  intro n
  induction n with
  | zero => exact fun y hy => hy
  | succ n ih =>
      intro y hy
      rw [ball_succ] at hy
      rcases Finset.mem_union.mp hy with h | h
      · exact ball_mono_succ G x n (ih h)
      · obtain ⟨hy2, w, hw, hwy⟩ := by simpa using h
        have hy2' : y ∈ G.nodes := by
          rwa [add_edge_nodes_eq hu hv] at hy2
        have hw' : w ∈ G.ball x n := ih hw
        rcases (adj_add_edge hdir).mp hwy with hadj | ⟨hwu, hyv⟩ | ⟨hwv, hyu⟩
        · exact mem_ball_step hw' hadj hy2'
        · have han : a ≤ n := distOpt_le ha (hwu ▸ hw')
          have hvb : v ∈ G.ball x b := (distOpt_some hb).1
          rw [hyv]
          exact ball_mono G x (show b ≤ n + 1 by omega) hvb
        · have hbn : b ≤ n := distOpt_le hb (hwv ▸ hw')
          have hua : u ∈ G.ball x a := (distOpt_some ha).1
          rw [hyu]
          exact ball_mono G x (show a ≤ n + 1 by omega) hua

theorem ball_add_edge_eq (hdir : G.directed = false)
    (hu : u ∈ G.nodes) (hv : v ∈ G.nodes)
    {a b : ℕ} (ha : G.distOpt x u = some a) (hb : G.distOpt x v = some b)
    (hab1 : a ≤ b + 1) (hab2 : b ≤ a + 1) :
    ∀ n, (G.add_edge u v).ball x n = G.ball x n := by
  intro n
  refine Finset.Subset.antisymm (ball_add_edge_subset hdir hu hv ha hb hab1 hab2 n) ?_
  exact ball_mono_graph (add_edge_nodes_eq hu hv).symm
    (fun a b h => (adj_add_edge hdir).mpr (Or.inl h)) n

theorem distOpt_add_edge_eq (hdir : G.directed = false)
    (hu : u ∈ G.nodes) (hv : v ∈ G.nodes)
    {a b : ℕ} (ha : G.distOpt x u = some a) (hb : G.distOpt x v = some b)
    (hab1 : a ≤ b + 1) (hab2 : b ≤ a + 1) (y : ℕ) :
    (G.add_edge u v).distOpt x y = G.distOpt x y :=
  distOpt_congr (add_edge_nodes_eq hu hv)
    (ball_add_edge_eq hdir hu hv ha hb hab1 hab2)

end WorkFiltering

section ClosenessLemmas

variable {G : Graph} {u v n : ℕ} {wf : Bool}

/-- The unweighted branch of the batch per-node formula written with the
integer-valued distance dictionary (as the Python source computes it). -/
theorem closenessValue_none_eq (G : Graph) (wf : Bool) (n : ℕ) :
    G.closenessValue none wf n =
      (let reach := G.nodes.filter (fun y => (G.hopMap n y).isSome)
       let totspN : ℕ := reach.sum (fun y => (G.hopMap n y).getD 0)
       if 0 < totspN ∧ 1 < G.nodes.card then
         let base := ((reach.card : ℚ) - 1) / (totspN : ℚ)
         if wf then base * (((reach.card : ℚ) - 1) / ((G.nodes.card : ℚ) - 1))
         else base
       else 0) := by
  have hval : ∀ y, ((G.hopMap n y).map (fun d => (d : ℚ))).getD 0
      = (((G.hopMap n y).getD 0 : ℕ) : ℚ) := by
    intro y; rcases G.hopMap n y with _ | d <;> simp
  have hfilter : G.nodes.filter (fun y => ((G.hopMap n y).map (fun d => (d : ℚ))).isSome)
      = G.nodes.filter (fun y => (G.hopMap n y).isSome) := by
    apply Finset.filter_congr
    intro y _
    rcases G.hopMap n y with _ | d <;> simp
  unfold Graph.closenessValue Graph.spMap
  simp only [hval, hfilter, ← Nat.cast_sum, Nat.cast_pos]

/-- The recompute branch of the incremental loop coincides with the batch
per-node formula on the current graph (the source's inline duplicate of the
§4.1 computation). -/
theorem incrementalLoopVal_recompute {Gp : Graph} {du dv : ℕ → Option ℕ} {p : CMap}
    {normalized : Bool} {n : ℕ} (h : filterCond (du n) (dv n) = false) :
    incrementalLoopVal Gp du dv p normalized n = Gp.closenessValue none normalized n := by
  rw [closenessValue_none_eq]
  unfold incrementalLoopVal
  rw [h]
  simp only [Bool.false_eq_true, if_false]

/-- The reuse branch of the incremental loop. -/
theorem incrementalLoopVal_reuse {Gp : Graph} {du dv : ℕ → Option ℕ} {p : CMap}
    {normalized : Bool} {n : ℕ} (h : filterCond (du n) (dv n) = true) :
    incrementalLoopVal Gp du dv p normalized n = p.val n := by
  unfold incrementalLoopVal
  rw [h]
  simp only [if_true]

/-- Closeness of `n` only depends on the node set and on the distances
from `n`. -/
theorem closenessValue_congr {G₁ G₂ : Graph} {n : ℕ} (wf : Bool)
    (hnodes : G₁.nodes = G₂.nodes)
    (hdist : ∀ y, G₁.distOpt n y = G₂.distOpt n y) :
    G₁.closenessValue none wf n = G₂.closenessValue none wf n := by
  have hhop : ∀ y, G₁.hopMap n y = G₂.hopMap n y := by
    intro y; unfold Graph.hopMap; rw [hnodes, hdist y]
  rw [closenessValue_none_eq, closenessValue_none_eq]
  simp only [hhop, hnodes]

theorem hopMap_some {a : ℕ} (h : G.hopMap u n = some a) :
    n ∈ G.nodes ∧ G.distOpt u n = some a := by
  unfold Graph.hopMap at h
  by_cases hn : n ∈ G.nodes
  · rw [if_pos hn] at h; exact ⟨hn, h⟩
  · rw [if_neg hn] at h; exact absurd h (by simp)

/-- Under the work filter, inserting the changed edge does not change the
closeness value of an admitted node (insertion case: distances measured on
the unmodified graph). -/
theorem closenessValue_add_edge (hdir : G.directed = false)
    (hu : u ∈ G.nodes) (hv : v ∈ G.nodes) {a b : ℕ}
    (ha : G.distOpt n u = some a) (hb : G.distOpt n v = some b)
    (hab1 : a ≤ b + 1) (hab2 : b ≤ a + 1) :
    (G.add_edge u v).closenessValue none wf n = G.closenessValue none wf n :=
  closenessValue_congr wf (add_edge_nodes_eq hu hv)
    (distOpt_add_edge_eq hdir hu hv ha hb hab1 hab2)

theorem adj_add_remove (hdir : G.directed = false) (hadj : G.adj u v) :
    ∀ a b, ((G.remove_edge u v).add_edge u v).adj a b ↔ G.adj a b := by
  intro a b
  have hdir' : (G.remove_edge u v).directed = false := by
    rw [remove_edge_directed]; exact hdir
  rw [adj_add_edge hdir', adj_remove_edge hdir]
  constructor
  · rintro (⟨h1, _⟩ | ⟨rfl, rfl⟩ | ⟨rfl, rfl⟩)
    · exact h1
    · exact hadj
    · exact adj_symm hdir hadj
  · intro h
    by_cases hp : (a = u ∧ b = v) ∨ (a = v ∧ b = u)
    · rcases hp with ⟨rfl, rfl⟩ | ⟨rfl, rfl⟩
      · exact Or.inr (Or.inl ⟨rfl, rfl⟩)
      · exact Or.inr (Or.inr ⟨rfl, rfl⟩)
    · exact Or.inl ⟨h, hp⟩

theorem add_remove_nodes (hu : u ∈ G.nodes) (hv : v ∈ G.nodes) :
    ((G.remove_edge u v).add_edge u v).nodes = G.nodes := by
  rw [add_edge_nodes_eq (G := G.remove_edge u v) ?_ ?_, remove_edge_nodes]
  · rw [remove_edge_nodes]; exact hu
  · rw [remove_edge_nodes]; exact hv

/-- Under the work filter, removing the changed edge does not change the
closeness value of an admitted node (deletion case: distances measured on
the modified graph). -/
theorem closenessValue_remove_edge (hdir : G.directed = false) (hWF : G.WF)
    (hadj : G.adj u v) {a b : ℕ}
    (ha : (G.remove_edge u v).distOpt n u = some a)
    (hb : (G.remove_edge u v).distOpt n v = some b)
    (hab1 : a ≤ b + 1) (hab2 : b ≤ a + 1) :
    (G.remove_edge u v).closenessValue none wf n = G.closenessValue none wf n := by
  have hu : u ∈ G.nodes := adj_mem_left hWF hadj
  have hv : v ∈ G.nodes := adj_mem_right hWF hadj
  have hdir' : (G.remove_edge u v).directed = false := by
    rw [remove_edge_directed]; exact hdir
  have hu' : u ∈ (G.remove_edge u v).nodes := by rw [remove_edge_nodes]; exact hu
  have hv' : v ∈ (G.remove_edge u v).nodes := by rw [remove_edge_nodes]; exact hv
  -- balls of the re-added graph agree with balls of the removed graph
  have h1 : ∀ k, ((G.remove_edge u v).add_edge u v).ball n k = (G.remove_edge u v).ball n k :=
    ball_add_edge_eq hdir' hu' hv' ha hb hab1 hab2
  -- and the re-added graph is adjacency-equal to the original graph
  have h2 : ∀ k, ((G.remove_edge u v).add_edge u v).ball n k = G.ball n k :=
    ball_congr_graph (add_remove_nodes hu hv) (adj_add_remove hdir hadj)
  have hball : ∀ k, (G.remove_edge u v).ball n k = G.ball n k :=
    fun k => (h1 k).symm.trans (h2 k)
  exact closenessValue_congr wf (remove_edge_nodes G u v)
    (fun y => distOpt_congr (remove_edge_nodes G u v) hball)

end ClosenessLemmas

section FilterBridge

variable {G : Graph} {u v : ℕ} {wf : Bool}

theorem filterCond_true {x y : Option ℕ} (h : filterCond x y = true) :
    ∃ a b, x = some a ∧ y = some b ∧ a ≤ b + 1 ∧ b ≤ a + 1 := by
  rcases x with _ | a <;> rcases y with _ | b
  · simp [filterCond] at h
  · simp [filterCond] at h
  · simp [filterCond] at h
  · refine ⟨a, b, rfl, rfl, ?_, ?_⟩ <;>
      · simp only [filterCond, decide_eq_true_eq] at h
        omega

/-- An admitted node's closeness is unchanged by the insertion (the filter
uses distances measured on the pre-insertion graph). -/
theorem reuse_stable_insert (hdir : G.directed = false) (hWF : G.WF)
    (hu : u ∈ G.nodes) (hv : v ∈ G.nodes) {n : ℕ}
    (h : filterCond (G.hopMap u n) (G.hopMap v n) = true) :
    (G.add_edge u v).closenessValue none wf n = G.closenessValue none wf n := by
  obtain ⟨a, b, ha, hb, h1, h2⟩ := filterCond_true h
  obtain ⟨hn, ha'⟩ := hopMap_some ha
  obtain ⟨_, hb'⟩ := hopMap_some hb
  have ha2 : G.distOpt n u = some a := by rw [distOpt_symm hWF hdir]; exact ha'
  have hb2 : G.distOpt n v = some b := by rw [distOpt_symm hWF hdir]; exact hb'
  exact closenessValue_add_edge hdir hu hv ha2 hb2 h1 h2

/-- An admitted node's closeness is unchanged by the deletion (the filter
uses distances measured on the post-deletion graph). -/
theorem reuse_stable_delete (hdir : G.directed = false) (hWF : G.WF)
    (hadj : G.adj u v) {n : ℕ}
    (h : filterCond ((G.remove_edge u v).hopMap u n)
          ((G.remove_edge u v).hopMap v n) = true) :
    (G.remove_edge u v).closenessValue none wf n = G.closenessValue none wf n := by
  obtain ⟨a, b, ha, hb, h1, h2⟩ := filterCond_true h
  obtain ⟨hn, ha'⟩ := hopMap_some ha
  obtain ⟨_, hb'⟩ := hopMap_some hb
  have hdir' : (G.remove_edge u v).directed = false := by
    rw [remove_edge_directed]; exact hdir
  have hWF' : (G.remove_edge u v).WF := WF_remove_edge hWF
  have ha2 : (G.remove_edge u v).distOpt n u = some a := by
    rw [distOpt_symm hWF' hdir']; exact ha'
  have hb2 : (G.remove_edge u v).distOpt n v = some b := by
    rw [distOpt_symm hWF' hdir']; exact hb'
  exact closenessValue_remove_edge hdir hWF hadj ha2 hb2 h1 h2

end FilterBridge

section StaleCheck

theorem staleCheckFails_iff (p : CMap) (G : Graph) :
    staleCheckFails (some p) G = false ↔ p.dom = G.nodes := by
  unfold staleCheckFails
  simp only [decide_eq_false_iff_not, not_or, not_not]
  constructor
  · rintro ⟨h1, h2⟩
    have hd : p.dom ∩ G.nodes = p.dom :=
      Finset.eq_of_subset_of_card_le Finset.inter_subset_left (le_of_eq h1)
    have hn : p.dom ∩ G.nodes = G.nodes :=
      Finset.eq_of_subset_of_card_le Finset.inter_subset_right (le_of_eq h2)
    exact hd.symm.trans hn
  · intro h
    constructor
    · simp [h, Finset.inter_self]
    · simp [h, Finset.inter_self]

theorem staleCheckFails_of_ne (p : CMap) (G : Graph) (h : p.dom ≠ G.nodes) :
    staleCheckFails (some p) G = true := by
  by_contra hc
  simp only [Bool.not_eq_true] at hc
  exact h ((staleCheckFails_iff p G).mp hc)

end StaleCheck

section IncrementalReduction

/-- Control-flow reduction of the incremental engine: undirected graph,
valid cache, applicable change — the call reaches the filtered loop and
returns the reverted graph together with the loop's dictionary. -/
theorem incremental_ok {G : Graph} (hdir : G.directed = false) {p : CMap}
    (hdom : p.dom = G.nodes) {u v : ℕ} {ins norm : Bool}
    (hins : ins = false → G.adj u v) :
    incremental_closeness_centrality G (u, v) (some p) ins norm =
      .ok (revertChange (applyChange G u v ins) u v ins,
           ⟨(applyChange G u v ins).nodes,
            fun n => incrementalLoopVal (applyChange G u v ins)
              ((measureGraph G u v ins).hopMap u) ((measureGraph G u v ins).hopMap v)
              p norm n⟩) := by
  have hstale : staleCheckFails (some p) G = false := (staleCheckFails_iff p G).mpr hdom
  cases ins
  · have hadj := hins rfl
    simp [incremental_closeness_centrality, hdir, hstale, incrementalDistMaps, hadj,
      applyChange, measureGraph]
  · simp [incremental_closeness_centrality, hdir, hstale, incrementalDistMaps,
      applyChange, measureGraph]

/-- Control-flow reduction of the fast path (no previous result): the change
is applied permanently and the batch engine's output on the changed graph is
returned as-is. -/
theorem incremental_fastpath {G : Graph} (hdir : G.directed = false)
    {u v : ℕ} {ins norm : Bool} (hins : ins = false → G.adj u v) :
    incremental_closeness_centrality G (u, v) none ins norm =
      .ok (applyChange G u v ins,
           closeness_centrality (applyChange G u v ins) none true) := by
  cases ins
  · have hadj := hins rfl
    simp [incremental_closeness_centrality, hdir, staleCheckFails, incrementalDistMaps,
      hadj, applyChange]
  · simp [incremental_closeness_centrality, hdir, staleCheckFails, incrementalDistMaps,
      applyChange]

end IncrementalReduction

section RangeLemmas

theorem closenessValue_eq_ite (G : Graph) (distance : Option (ℕ → ℕ → ℚ))
    (wf : Bool) (n : ℕ) :
    G.closenessValue distance wf n =
      (if 0 < G.rawDistanceSum distance n ∧ 1 < G.nodes.card then
        (let reach := G.nodes.filter (fun y => (G.spMap distance n y).isSome)
         let base := ((reach.card : ℚ) - 1) / G.rawDistanceSum distance n
         if wf then base * (((reach.card : ℚ) - 1) / ((G.nodes.card : ℚ) - 1))
         else base)
      else 0) := rfl

theorem closenessValue_zero_of_sum_eq_zero {G : Graph}
    {distance : Option (ℕ → ℕ → ℚ)} {wf : Bool} {n : ℕ}
    (h : G.rawDistanceSum distance n = 0) :
    G.closenessValue distance wf n = 0 := by
  rw [closenessValue_eq_ite, h]
  norm_num

theorem closenessValue_zero_of_singleton {G : Graph}
    {distance : Option (ℕ → ℕ → ℚ)} {wf : Bool} {n : ℕ}
    (h : G.nodes.card = 1) :
    G.closenessValue distance wf n = 0 := by
  rw [closenessValue_eq_ite, h]
  norm_num

/-- Range of the unweighted batch value: a number in `[0, 1]` for every
node of the graph. -/
theorem closenessValue_none_range (G : Graph) (wf : Bool) {n : ℕ}
    (hn : n ∈ G.nodes) :
    0 ≤ G.closenessValue none wf n ∧ G.closenessValue none wf n ≤ 1 := by
  rw [closenessValue_none_eq]
  simp only
  by_cases hc : 0 < (G.nodes.filter (fun y => (G.hopMap n y).isSome)).sum
      (fun y => (G.hopMap n y).getD 0) ∧ 1 < G.nodes.card
  · rw [if_pos hc]
    set reach := G.nodes.filter (fun y => (G.hopMap n y).isSome) with hreach
    set T := reach.sum (fun y => (G.hopMap n y).getD 0) with hT
    have hnreach : n ∈ reach := by
      rw [hreach]
      refine Finset.mem_filter.mpr ⟨hn, ?_⟩
      simp [Graph.hopMap, hn, distOpt_self]
    have hs1 : 1 ≤ reach.card := Finset.card_pos.mpr ⟨n, hnreach⟩
    have hsN : reach.card ≤ G.nodes.card := Finset.card_le_card (Finset.filter_subset _ _)
    have hTlb : reach.card - 1 ≤ T := by
      have h1 : ∀ y ∈ reach.erase n, 1 ≤ (G.hopMap n y).getD 0 := by
        intro y hy
        obtain ⟨hyne, hyr⟩ := Finset.mem_erase.mp hy
        have hsome := (Finset.mem_filter.mp (hreach ▸ hyr)).2
        rcases hmap : G.hopMap n y with _ | d
        · rw [hmap] at hsome; simp at hsome
        · obtain ⟨_, hd⟩ := hopMap_some hmap
          rcases Nat.eq_zero_or_pos d with rfl | hdpos
          · exact absurd (distOpt_eq_zero hd) hyne
          · simp only [hmap, Option.getD_some]; omega
      have h2 : (reach.erase n).card ≤ (reach.erase n).sum (fun y => (G.hopMap n y).getD 0) := by
        have := Finset.card_nsmul_le_sum (reach.erase n)
          (fun y => (G.hopMap n y).getD 0) 1 h1
        simpa using this
      have h3 : (reach.erase n).sum (fun y => (G.hopMap n y).getD 0) ≤ T := by
        rw [hT]
        exact Finset.sum_le_sum_of_subset (Finset.erase_subset _ _)
      rw [Finset.card_erase_of_mem hnreach] at h2
      omega
    have hTpos : (0 : ℚ) < (T : ℚ) := by
      have := hc.1
      rw [hT] at *
      exact_mod_cast this
    have hbase0 : 0 ≤ ((reach.card : ℚ) - 1) / (T : ℚ) := by
      apply div_nonneg _ (le_of_lt hTpos)
      have : (1 : ℚ) ≤ (reach.card : ℚ) := by exact_mod_cast hs1
      linarith
    have hbase1 : ((reach.card : ℚ) - 1) / (T : ℚ) ≤ 1 := by
      rw [div_le_one hTpos]
      have : ((reach.card : ℚ) - 1) ≤ ((reach.card - 1 : ℕ) : ℚ) := by
        push_cast [Nat.cast_sub hs1]
        linarith
      have h2 : ((reach.card - 1 : ℕ) : ℚ) ≤ (T : ℚ) := by exact_mod_cast hTlb
      linarith
    have hw0 : 0 ≤ ((reach.card : ℚ) - 1) / ((G.nodes.card : ℚ) - 1) := by
      apply div_nonneg
      · have : (1 : ℚ) ≤ (reach.card : ℚ) := by exact_mod_cast hs1
        linarith
      · have : (1 : ℚ) < (G.nodes.card : ℚ) := by exact_mod_cast hc.2
        linarith
    have hw1 : ((reach.card : ℚ) - 1) / ((G.nodes.card : ℚ) - 1) ≤ 1 := by
      have hNpos : (0 : ℚ) < (G.nodes.card : ℚ) - 1 := by
        have : (1 : ℚ) < (G.nodes.card : ℚ) := by exact_mod_cast hc.2
        linarith
      rw [div_le_one hNpos]
      have : (reach.card : ℚ) ≤ (G.nodes.card : ℚ) := by exact_mod_cast hsN
      linarith
    cases wf
    · simp only [Bool.false_eq_true, if_false]
      exact ⟨hbase0, hbase1⟩
    · simp only [if_true]
      constructor
      · exact mul_nonneg hbase0 hw0
      · exact mul_le_one₀ hbase1 hw0 hw1
  · rw [if_neg hc]
    norm_num

end RangeLemmas

section ErrorPaths

theorem incremental_directed {G : Graph} (h : G.directed = true)
    (edge : ℕ × ℕ) (prev : Option CMap) (ins norm : Bool) :
    incremental_closeness_centrality G edge prev ins norm =
      .error (.unsupportedGraphType, G) := by
  simp [incremental_closeness_centrality, h]

theorem incremental_stale {G : Graph} {p : CMap} (hdir : G.directed = false)
    (h : p.dom ≠ G.nodes) (edge : ℕ × ℕ) (ins norm : Bool) :
    incremental_closeness_centrality G edge (some p) ins norm =
      .error (.staleCentralityCache, G) := by
  simp [incremental_closeness_centrality, hdir, staleCheckFails_of_ne p G h]

theorem incremental_missing_edge {G : Graph} {u v : ℕ} {prev : Option CMap}
    (hdir : G.directed = false) (hstale : staleCheckFails prev G = false)
    (hadj : ¬ G.adj u v) (norm : Bool) :
    incremental_closeness_centrality G (u, v) prev false norm =
      .error (.graphMutationError, G) := by
  simp [incremental_closeness_centrality, hdir, hstale, incrementalDistMaps, hadj]

end ErrorPaths

section RevertLemmas

variable {G : Graph} {u v : ℕ}

theorem adj_remove_add (hdir : G.directed = false) (hnadj : ¬ G.adj u v) :
    ∀ a b, ((G.add_edge u v).remove_edge u v).adj a b ↔ G.adj a b := by
  intro a b
  have hdir' : (G.add_edge u v).directed = false := by
    rw [add_edge_directed]; exact hdir
  rw [adj_remove_edge hdir', adj_add_edge hdir]
  constructor
  · rintro ⟨hadj | hp, hnp⟩
    · exact hadj
    · exact absurd hp hnp
  · intro h
    refine ⟨Or.inl h, ?_⟩
    rintro (⟨rfl, rfl⟩ | ⟨rfl, rfl⟩)
    · exact hnadj h
    · exact hnadj (adj_symm hdir h)

theorem applyChange_directed (G : Graph) (u v : ℕ) (ins : Bool) :
    (applyChange G u v ins).directed = G.directed := by
  cases ins <;> simp [applyChange, add_edge_directed, remove_edge_directed]

end RevertLemmas

/-- Claim C7: for every directed graph, calling the incremental update
always raises `UnsupportedGraphType`, before any mutation of the graph (the
error carries the untouched input graph). -/
theorem C7_directed_rejected (G : Graph) (edge : ℕ × ℕ) (prev : Option CMap)
    (ins norm : Bool) (h : G.directed = true) :
    incremental_closeness_centrality G edge prev ins norm =
      .error (.unsupportedGraphType, G) :=
  incremental_directed h edge prev ins norm

/-- Witness for C7 at a concrete directed graph. -/
theorem C7_witness :
    D1.directed = true ∧
      incremental_closeness_centrality D1 (1, 2) none true true =
        .error (.unsupportedGraphType, D1) :=
  ⟨rfl, C7_directed_rejected D1 (1, 2) none true true rfl⟩

/-- Counterexample for C6 as stated: on a directed graph with a mismatched
previous result, the error raised is `UnsupportedGraphType`, not
`StaleCentralityCache` (the directedness check runs first). -/
theorem C6_counterexample :
    Pbad3.dom ≠ D1.nodes ∧
      failsAs (incremental_closeness_centrality D1 (1, 2) (some Pbad3) true true)
        CentralityError.unsupportedGraphType ∧
      ¬ failsAs (incremental_closeness_centrality D1 (1, 2) (some Pbad3) true true)
        CentralityError.staleCentralityCache := by
  decide

/-- Claim C6 (amended: undirected graphs): a previous result whose key set
differs from the node set always raises `StaleCentralityCache`, before any
mutation (the error carries the untouched input graph). -/
theorem C6_stale_raised (G : Graph) (p : CMap) (edge : ℕ × ℕ) (ins norm : Bool)
    (hdir : G.directed = false) (h : p.dom ≠ G.nodes) :
    incremental_closeness_centrality G edge (some p) ins norm =
      .error (.staleCentralityCache, G) :=
  incremental_stale hdir h edge ins norm

/-- Witness for C6 at a concrete undirected graph. -/
theorem C6_witness :
    Pbad3.dom ≠ E2.nodes ∧
      incremental_closeness_centrality E2 (1, 2) (some Pbad3) true true =
        .error (.staleCentralityCache, E2) :=
  ⟨by decide, C6_stale_raised E2 Pbad3 (1, 2) true true rfl (by decide)⟩

/-- Counterexample for C8 as stated: with no previous result the change is
not always applied — deleting a missing edge raises a mutation error, and a
directed graph raises `UnsupportedGraphType`. -/
theorem C8_counterexample :
    failsAs (incremental_closeness_centrality E2 (1, 2) none false true)
      CentralityError.graphMutationError ∧
    failsAs (incremental_closeness_centrality D1 (1, 2) none true true)
      CentralityError.unsupportedGraphType := by
  decide

/-- Claim C8 (amended: undirected graph, applicable change): with no
previous result the change is applied permanently (the returned graph is
the changed graph, never reverted) and the output is exactly the batch
engine's dictionary on the changed graph. -/
theorem C8_fastpath (G : Graph) (u v : ℕ) (ins norm : Bool)
    (hdir : G.directed = false) (hins : ins = false → G.adj u v) :
    incremental_closeness_centrality G (u, v) none ins norm =
      .ok (applyChange G u v ins,
           closeness_centrality (applyChange G u v ins) none true) :=
  incremental_fastpath hdir hins

/-- Witness for C8 at a concrete insertion. -/
theorem C8_witness :
    E2.directed = false ∧
      incremental_closeness_centrality E2 (1, 2) none true true =
        .ok (applyChange E2 1 2 true,
             closeness_centrality (applyChange E2 1 2 true) none true) :=
  ⟨rfl, C8_fastpath E2 1 2 true true rfl (fun h => Bool.noConfusion h)⟩

/-- Counterexample for C3 as stated: for an insertion the endpoint distance
maps are measured BEFORE the change takes effect — on `G3`, node 3 is absent
from the measured map of endpoint 1 although it is reachable in the changed
graph. -/
theorem C3_counterexample :
    ¬ (dmapsFstAt (incrementalDistMaps G3 1 2 true) 3 =
        (applyChange G3 1 2 true).hopMap 1 3) := by
  decide

/-- Claim C3 (amended): the endpoint distance maps are measured on the
post-change graph for a deletion but on the pre-change graph for an
insertion (`measureGraph`). -/
theorem C3_measured_graph (G : Graph) (u v : ℕ) (ins : Bool)
    (hins : ins = false → G.adj u v) :
    incrementalDistMaps G u v ins =
      .ok ((measureGraph G u v ins).hopMap u, (measureGraph G u v ins).hopMap v,
           applyChange G u v ins) := by
  cases ins
  · simp [incrementalDistMaps, measureGraph, applyChange, hins rfl]
  · simp [incrementalDistMaps, measureGraph, applyChange]

/-- Witness for C3 at a concrete deletion. -/
theorem C3_witness :
    W2.adj 1 2 ∧
      incrementalDistMaps W2 1 2 false =
        .ok ((measureGraph W2 1 2 false).hopMap 1, (measureGraph W2 1 2 false).hopMap 2,
             applyChange W2 1 2 false) :=
  ⟨by decide, C3_measured_graph W2 1 2 false (fun _ => by decide)⟩

/-- Claim C10: inserting an edge that is already present is silently
accepted (the call succeeds), and the final revert then removes it, so the
call returns with the graph missing an edge it had at entry. -/
theorem C10_duplicate_insert (G : Graph) (u v : ℕ) (p : CMap) (norm : Bool)
    (hdir : G.directed = false) (hadj : G.adj u v) (hdom : p.dom = G.nodes) :
    callSucceeds (incremental_closeness_centrality G (u, v) (some p) true norm) ∧
      ¬ (resultGraph (incremental_closeness_centrality G (u, v) (some p) true norm)).adj u v := by
  rw [incremental_ok hdir hdom (fun h => Bool.noConfusion h)]
  constructor
  · simp [callSucceeds]
  · simp only [resultGraph, revertChange, applyChange, if_true]
    intro hadj'
    rw [adj_remove_edge (by rw [add_edge_directed]; exact hdir)] at hadj'
    exact hadj'.2 (Or.inl ⟨rfl, rfl⟩)

/-- Witness for C10 at a concrete duplicate insertion. -/
theorem C10_witness :
    W2.adj 1 2 ∧ PM2.dom = W2.nodes ∧
      (callSucceeds (incremental_closeness_centrality W2 (1, 2) (some PM2) true true) ∧
        ¬ (resultGraph (incremental_closeness_centrality W2 (1, 2) (some PM2) true true)).adj 1 2) :=
  ⟨by decide, by decide, C10_duplicate_insert W2 1 2 PM2 true rfl (by decide) (by decide)⟩

/-- Counterexample for C2 as stated: the fast path (no previous result)
mutates the graph permanently, and a duplicate insertion with a previous
result exits with an edge removed that was present at entry. -/
theorem C2_counterexample :
    ((resultGraph (incremental_closeness_centrality E2 (1, 2) none true true)).adj 1 2
      ∧ ¬ E2.adj 1 2)
    ∧ (¬ (resultGraph (incremental_closeness_centrality W2 (1, 2) (some PM2) true true)).adj 1 2
      ∧ W2.adj 1 2) := by
  decide

/-- Claim C2 (amended: a previous result is supplied and an insertion does
not duplicate an existing edge): at every exit — success or error — the
graph's edge set equals its edge set at entry. -/
theorem C2_edges_preserved (G : Graph) (u v : ℕ) (p : CMap) (ins norm : Bool)
    (hins : ins = true → ¬ G.adj u v) (a b : ℕ) :
    (resultGraph (incremental_closeness_centrality G (u, v) (some p) ins norm)).adj a b
      ↔ G.adj a b := by
  by_cases hdir : G.directed = true
  · rw [incremental_directed hdir]
    exact Iff.rfl
  · have hdir' : G.directed = false := by
      simp only [Bool.not_eq_true] at hdir; exact hdir
    by_cases hdom : p.dom = G.nodes
    · cases ins
      · by_cases hadj : G.adj u v
        · rw [incremental_ok hdir' hdom (fun _ => hadj)]
          simp only [resultGraph, revertChange, applyChange, Bool.false_eq_true,
            if_false]
          exact adj_add_remove hdir' hadj a b
        · rw [incremental_missing_edge hdir' ((staleCheckFails_iff p G).mpr hdom) hadj norm]
          exact Iff.rfl
      · rw [incremental_ok hdir' hdom (fun h => Bool.noConfusion h)]
        simp only [resultGraph, revertChange, applyChange, if_true]
        exact adj_remove_add hdir' (hins rfl) a b
    · rw [incremental_stale hdir' hdom]
      exact Iff.rfl

/-- Witness for C2 at a concrete insertion call. -/
theorem C2_witness :
    ¬ E2.adj 1 2 ∧
      ((resultGraph (incremental_closeness_centrality E2 (1, 2) (some PM2) true true)).adj 1 2
        ↔ E2.adj 1 2) :=
  ⟨by decide, C2_edges_preserved E2 1 2 PM2 true true (fun _ => by decide) 1 2⟩

/-- Claim C9: on the path graph 1-2-3-4-5, the batch engine (unweighted,
Wasserman-Faust scaling on) assigns the center node 3 the value 4/6. -/
theorem C9_path_center : (closeness_centrality P5 none true).val 3 = 4 / 6 := by
  show P5.closenessValue none true 3 = 4 / 6
  rw [closenessValue_none_eq]
  have h1 : P5.nodes.filter (fun y => (P5.hopMap 3 y).isSome) = {1, 2, 3, 4, 5} := by
    decide
  have h2 : ({1, 2, 3, 4, 5} : Finset ℕ).sum (fun y => (P5.hopMap 3 y).getD 0) = 6 := by
    decide
  simp only [h1, h2]
  norm_num [P5]

theorem W2_adj_iff : ∀ x y, W2.adj x y ↔ ((x = 1 ∧ y = 2) ∨ (x = 2 ∧ y = 1)) := by
  intro x y
  simp [Graph.adj, W2, Prod.ext_iff, and_comm]

theorem W2_weighted_dists :
    W2.wMap whalf 1 1 = some 0 ∧ W2.wMap whalf 1 2 = some (1 / 2) := by
  have hn : W2.nodes = ({1, 2} : Finset ℕ) := rfl
  have hcard : W2.nodes.card = 2 := rfl
  constructor <;>
  · simp only [Graph.wMap, hn, hcard, Graph.wIter, Graph.wRelax, whalf]
    norm_num [W2_adj_iff, omin, Finset.fold_insert, Finset.fold_singleton]

/-- Counterexample for C5 as stated: in weighted-distance mode (edge weight
1/2 between two nodes) the computed centrality is 2, outside [0, 1], even
with Wasserman-Faust scaling enabled. -/
theorem C5_counterexample :
    (closeness_centrality W2 (some whalf) true).val 1 = 2 ∧
      ¬ (closeness_centrality W2 (some whalf) true).val 1 ≤ 1 := by
  have hval : (closeness_centrality W2 (some whalf) true).val 1 = 2 := by
    show W2.closenessValue (some whalf) true 1 = 2
    have hn : W2.nodes = ({1, 2} : Finset ℕ) := rfl
    have hcard : W2.nodes.card = 2 := rfl
    simp only [Graph.closenessValue, Graph.spMap, hn, hcard]
    norm_num [Finset.filter_insert, Finset.filter_singleton, Finset.sum_insert,
      Finset.sum_singleton, W2_weighted_dists.1, W2_weighted_dists.2]
  refine ⟨hval, ?_⟩
  rw [hval]
  norm_num

/-- Claim C5 (amended: the [0, 1] range is asserted for unweighted
distances): for every graph and every node, the unweighted value lies in
[0, 1]; and in any mode the value is 0 when the node's raw distance sum is
0 (isolated node) or the graph has exactly one node. -/
theorem C5_range_zero (G : Graph) (wf : Bool) (distance : Option (ℕ → ℕ → ℚ)) (n : ℕ)
    (hn : n ∈ G.nodes) :
    (0 ≤ (closeness_centrality G none wf).val n ∧ (closeness_centrality G none wf).val n ≤ 1)
    ∧ ((if G.directed = true then G.reverse else G).rawDistanceSum distance n = 0 →
        (closeness_centrality G distance wf).val n = 0)
    ∧ (G.nodes.card = 1 → (closeness_centrality G distance wf).val n = 0) := by
  have hnodes : (if G.directed = true then G.reverse else G).nodes = G.nodes := by
    split <;> rfl
  have hcard : (if G.directed = true then G.reverse else G).nodes.card = G.nodes.card := by
    rw [hnodes]
  refine ⟨?_, ?_, ?_⟩
  · show 0 ≤ (if G.directed = true then G.reverse else G).closenessValue none wf n ∧
      (if G.directed = true then G.reverse else G).closenessValue none wf n ≤ 1
    exact closenessValue_none_range _ wf (by rw [hnodes]; exact hn)
  · intro h
    show (if G.directed = true then G.reverse else G).closenessValue distance wf n = 0
    exact closenessValue_zero_of_sum_eq_zero h
  · intro h
    show (if G.directed = true then G.reverse else G).closenessValue distance wf n = 0
    exact closenessValue_zero_of_singleton (by rw [hcard]; exact h)

/-- Witness for C5 at the path graph's center node. -/
theorem C5_witness :
    3 ∈ P5.nodes ∧
      (0 ≤ (closeness_centrality P5 none true).val 3 ∧
        (closeness_centrality P5 none true).val 3 ≤ 1) :=
  ⟨by decide, (C5_range_zero P5 true none 3 (by decide)).1⟩

/-- Claim C4: in the incremental path, a node present in both endpoint
distance maps with distance difference at most 1 gets its value copied
unchanged from the previous result; every other node is recomputed by the
batch per-node formula (unweighted) over the changed graph. -/
theorem C4_filter_cases (G : Graph) (u v : ℕ) (p : CMap) (ins norm : Bool)
    (hdir : G.directed = false) (hdom : p.dom = G.nodes)
    (hins : ins = false → G.adj u v) (n : ℕ)
    (hn : n ∈ (applyChange G u v ins).nodes) :
    resultMapAt (incremental_closeness_centrality G (u, v) (some p) ins norm) n =
      some (if filterCond ((measureGraph G u v ins).hopMap u n)
                ((measureGraph G u v ins).hopMap v n) = true
            then p.val n
            else (applyChange G u v ins).closenessValue none norm n) := by
  rw [incremental_ok hdir hdom hins]
  simp only [resultMapAt]
  rw [if_pos hn]
  congr 1
  by_cases hf : filterCond ((measureGraph G u v ins).hopMap u n)
      ((measureGraph G u v ins).hopMap v n) = true
  · rw [incrementalLoopVal_reuse hf, if_pos hf]
  · rw [if_neg hf]
    rw [Bool.not_eq_true] at hf
    rw [incrementalLoopVal_recompute hf]

/-- Witness for C4 at a concrete insertion: node 2 passes the filter and is
copied from the previous dictionary. -/
theorem C4_witness :
    2 ∈ (applyChange GT 1 3 true).nodes ∧
      resultMapAt (incremental_closeness_centrality GT (1, 3) (some P42) true true) 2 =
        some 42 := by
  refine ⟨by decide, ?_⟩
  have h := C4_filter_cases GT 1 3 P42 true true rfl (by decide)
    (fun h' => Bool.noConfusion h') 2 (by decide)
  rw [h]
  have hf : filterCond ((measureGraph GT 1 3 true).hopMap 1 2)
      ((measureGraph GT 1 3 true).hopMap 3 2) = true := by decide
  rw [if_pos hf]
  rfl

/-- Core of the equivalence: with a valid previous result, every node's
loop value equals the batch per-node value on the changed graph — filtered
nodes by the work-filtering principle, the rest by recomputation. -/
theorem loopVal_eq_batch (G : Graph) (u v : ℕ) (ins norm : Bool)
    (hdir : G.directed = false) (hWF : G.WF)
    (hu : ins = true → u ∈ G.nodes ∧ v ∈ G.nodes)
    (hins : ins = false → G.adj u v) (n : ℕ) :
    incrementalLoopVal (applyChange G u v ins)
      ((measureGraph G u v ins).hopMap u) ((measureGraph G u v ins).hopMap v)
      (closeness_centrality G none norm) norm n
      = (applyChange G u v ins).closenessValue none norm n := by
  by_cases hf : filterCond ((measureGraph G u v ins).hopMap u n)
      ((measureGraph G u v ins).hopMap v n) = true
  · rw [incrementalLoopVal_reuse hf]
    have hpval : (closeness_centrality G none norm).val n = G.closenessValue none norm n := by
      show (if G.directed = true then G.reverse else G).closenessValue none norm n = _
      rw [hdir]
      simp
    rw [hpval]
    cases ins
    · have hadj := hins rfl
      have hf' : filterCond ((G.remove_edge u v).hopMap u n)
          ((G.remove_edge u v).hopMap v n) = true := hf
      exact (reuse_stable_delete hdir hWF hadj hf').symm
    · obtain ⟨hu1, hv1⟩ := hu rfl
      have hf' : filterCond (G.hopMap u n) (G.hopMap v n) = true := hf
      exact (reuse_stable_insert hdir hWF hu1 hv1 hf').symm
  · rw [Bool.not_eq_true] at hf
    rw [incrementalLoopVal_recompute hf]

/-- Claim C1 (amended: the previous result is the batch engine's output on
the pre-change graph with the same normalization flag, the graph is
undirected and well-formed, and the change is applicable — existing
endpoints for an insertion, an existing edge for a deletion): the
incremental update succeeds and its dictionary equals, node for node, the
batch engine's dictionary on the changed graph. -/
theorem C1_incremental_equals_batch (G : Graph) (u v : ℕ) (ins norm : Bool)
    (hdir : G.directed = false) (hWF : G.WF)
    (hu : ins = true → u ∈ G.nodes ∧ v ∈ G.nodes)
    (hins : ins = false → G.adj u v) :
    okAgrees
      (incremental_closeness_centrality G (u, v)
        (some (closeness_centrality G none norm)) ins norm)
      (closeness_centrality (applyChange G u v ins) none norm) := by
  have hpdom : (closeness_centrality G none norm).dom = G.nodes := by
    show (if G.directed = true then G.reverse else G).nodes = G.nodes
    rw [hdir]
    simp
  rw [incremental_ok hdir hpdom hins]
  have hdirA : (applyChange G u v ins).directed = false := by
    rw [applyChange_directed]; exact hdir
  unfold okAgrees agreeOn
  constructor
  · show (applyChange G u v ins).nodes =
      (if (applyChange G u v ins).directed = true then (applyChange G u v ins).reverse
       else applyChange G u v ins).nodes
    rw [hdirA]
    simp
  · intro n hn
    have hR : (closeness_centrality (applyChange G u v ins) none norm).val n
        = (applyChange G u v ins).closenessValue none norm n := by
      show (if (applyChange G u v ins).directed = true then (applyChange G u v ins).reverse
        else applyChange G u v ins).closenessValue none norm n = _
      rw [hdirA]
      simp
    rw [hR]
    exact loopVal_eq_batch G u v ins norm hdir hWF hu hins n

/-- Counterexample for C1 as stated: a previous map with the correct key
set but arbitrary values is copied through the work filter, so the output
is not the batch result on the changed graph (node 2 keeps the bogus value
42 instead of its batch value 1). -/
theorem C1_counterexample :
    ¬ okAgrees
        (incremental_closeness_centrality GT (1, 3) (some P42) true true)
        (closeness_centrality (applyChange GT 1 3 true) none true) := by
  intro h
  rw [incremental_ok rfl (by decide) (fun h' => Bool.noConfusion h')] at h
  unfold okAgrees agreeOn at h
  have h2 : incrementalLoopVal (applyChange GT 1 3 true)
      ((measureGraph GT 1 3 true).hopMap 1) ((measureGraph GT 1 3 true).hopMap 3)
      P42 true 2 =
      (closeness_centrality (applyChange GT 1 3 true) none true).val 2 := h.2 2 (by decide)
  have hf : filterCond ((measureGraph GT 1 3 true).hopMap 1 2)
      ((measureGraph GT 1 3 true).hopMap 3 2) = true := by decide
  rw [incrementalLoopVal_reuse hf] at h2
  have hval : (closeness_centrality (applyChange GT 1 3 true) none true).val 2 = 1 := by
    show (applyChange GT 1 3 true).closenessValue none true 2 = 1
    rw [closenessValue_none_eq]
    have e1 : (applyChange GT 1 3 true).nodes.filter
        (fun y => ((applyChange GT 1 3 true).hopMap 2 y).isSome) = {1, 2, 3} := by decide
    have e2 : ({1, 2, 3} : Finset ℕ).sum
        (fun y => ((applyChange GT 1 3 true).hopMap 2 y).getD 0) = 2 := by decide
    have e3 : (applyChange GT 1 3 true).nodes.card = 3 := by decide
    simp only [e1, e2, e3]
    norm_num
  rw [hval] at h2
  have : (42 : ℚ) = 1 := h2
  norm_num at this

/-- Witness for C1 at a concrete insertion with a valid previous result. -/
theorem C1_witness :
    GT.directed = false ∧ GT.WF ∧
      okAgrees
        (incremental_closeness_centrality GT (1, 3)
          (some (closeness_centrality GT none true)) true true)
        (closeness_centrality (applyChange GT 1 3 true) none true) :=
  ⟨rfl, by decide, C1_incremental_equals_batch GT 1 3 true true rfl (by decide)
    (fun _ => by decide) (fun h => Bool.noConfusion h)⟩
